import Mathlib

/-!
Verification of the diff normalization, truncation, token-estimation and
configuration-resolution logic of the mr-comment tool (`src/main.rs`).

Strings are modelled as lists of Unicode characters (`Str`).  The Rust
primitives the program uses (`str::lines`, `str::split`, `slice::join`,
`str::starts_with`, `str::trim_start_matches`, `str::trim`) are embedded as
recursive functions below, and the program's own functions (the pure
normalization loop of `get_diff_from_git`, then `truncate_diff`,
`estimate_tokens`, and the configuration resolution of `main`) are
translated on top of them.
-/

/-- Strings are modelled as lists of characters. -/
abbrev Str := List Char

/-- Embeds Rust `str::starts_with`: `startsWith pat s = true` iff `pat` is a
prefix of `s`. -/
def startsWith : Str → Str → Bool
  | [], _ => true
  | _ :: _, [] => false
  | p :: ps, c :: cs => (p == c) && startsWith ps cs

/-- Prepends a character to the first piece of a split result. -/
def consHead (c : Char) : List Str → List Str
  | [] => [[c]]
  | p :: ps => (c :: p) :: ps

/-- Embeds Rust `str::split(sep)` for a one-character separator: splits at
every occurrence of `sep`, keeping empty pieces; the split of the empty
string is `[[]]`, exactly as `"".split(sep)` yields one empty piece. -/
def splitBy (sep : Char) : Str → List Str
  | [] => [[]]
  | c :: cs => if c = sep then [] :: splitBy sep cs else consHead c (splitBy sep cs)

/-- Removes one trailing carriage return, as Rust `lines()` does on every
line that was terminated by a line feed. -/
def stripCR : Str → Str
  | [] => []
  | [c] => if c = '\r' then [] else [c]
  | c :: c' :: cs => c :: stripCR (c' :: cs)

/-- Turns the pieces of a split at every line feed into the lines that Rust
`str::lines()` yields: every piece but the last was terminated by a line
feed, so it loses one trailing carriage return; the last piece is dropped
when empty (a final line terminator yields no extra line) and otherwise
kept verbatim. -/
def linesAux : List Str → List Str
  | [] => []
  | [l] => if l = [] then [] else [l]
  | l :: l' :: ls => stripCR l :: linesAux (l' :: ls)

/-- Embeds Rust `str::lines()`. -/
def rustLines (s : Str) : List Str := linesAux (splitBy '\n' s)

/-- Embeds Rust `slice::join("\n")` on a list of lines. -/
def joinNL : List Str → Str
  | [] => []
  | [p] => p
  | p :: p' :: ps => p ++ '\n' :: joinNL (p' :: ps)

/-- Embeds Rust `str::contains` for a string pattern: `occursIn pat s` is
true iff `pat` occurs contiguously somewhere in `s`. -/
def occursIn (pat : Str) : Str → Bool
  | [] => startsWith pat []
  | c :: cs => startsWith pat (c :: cs) || occursIn pat cs

/-- Embeds Rust `str::trim_start_matches("a/")`: repeatedly removes a
leading `a/`, not just the first occurrence. -/
def trimStartAslash : Str → Str
  | [] => []
  | [c] => [c]
  | c :: c' :: cs => if c = 'a' ∧ c' = '/' then trimStartAslash cs else c :: c' :: cs

/-- Embeds Rust `char::is_whitespace` (the Unicode `White_Space`
property). -/
def rustIsWhitespace (c : Char) : Bool :=
  c.toNat = 0x09 || c.toNat = 0x0A || c.toNat = 0x0B || c.toNat = 0x0C ||
  c.toNat = 0x0D || c.toNat = 0x20 || c.toNat = 0x85 || c.toNat = 0xA0 ||
  c.toNat = 0x1680 || (0x2000 ≤ c.toNat && c.toNat ≤ 0x200A) ||
  c.toNat = 0x2028 || c.toNat = 0x2029 || c.toNat = 0x202F ||
  c.toNat = 0x205F || c.toNat = 0x3000

/-- Removes leading Rust whitespace. -/
def trimStartWs : Str → Str
  | [] => []
  | c :: cs => if rustIsWhitespace c then trimStartWs cs else c :: cs

/-- Embeds Rust `str::trim` (leading and trailing whitespace removed). -/
def rustTrim (s : Str) : Str := trimStartWs ((trimStartWs s.reverse).reverse)

/-- The prefix of a binary-file notice line (`main.rs` line 231). -/
def binPat : Str := "Binary files".toList

/-- The prefix of a per-file diff header line (`main.rs` line 235). -/
def headerPat : Str := "diff --git".toList

/-- The null-device post-image marker prefix (`main.rs` line 253). -/
def delPat : Str := "+++ /dev/null".toList

/-- The null-device pre-image marker prefix (`main.rs` line 255). -/
def newPat : Str := "--- /dev/null".toList

/-- The path captured from a per-file header line: the third
space-separated token with every leading `a/` stripped (`main.rs` line
248: `line.split(' ').nth(2).map(|s| s.trim_start_matches("a/"))`). -/
def pathFromHeader (line : Str) : Option Str :=
  ((splitBy ' ' line)[2]?).map trimStartAslash

/-- The mutable state of the normalization loop in `get_diff_from_git`
(`main.rs` lines 223-228). -/
structure ScanState where
  filtered : List Str
  new_files : List Str
  deleted_files : List Str
  current_file : Option Str
  in_delete : Bool
  in_new : Bool
deriving DecidableEq, Repr

/-- The state at entry of the loop: all accumulators empty, no current
file, both flags down. -/
def initState : ScanState :=
  { filtered := [], new_files := [], deleted_files := [],
    current_file := none, in_delete := false, in_new := false }

/-- Flushes the pending file: `if let Some(file) = current_file.take()`
followed by the flag checks (`main.rs` lines 237-243 and 266-272). -/
def flushCurrent (st : ScanState) : ScanState :=
  match st.current_file with
  | none => st
  | some f =>
    if st.in_new = true then
      { st with new_files := st.new_files ++ [f], current_file := none }
    else if st.in_delete = true then
      { st with deleted_files := st.deleted_files ++ [f], current_file := none }
    else
      { st with current_file := none }

/-- One iteration of the normalization loop body (`main.rs` lines
230-263). -/
def scanLine (st : ScanState) (line : Str) : ScanState :=
  if startsWith binPat line = true then st
  else if startsWith headerPat line = true then
    let st' := flushCurrent st
    { st' with in_delete := false, in_new := false,
               current_file := pathFromHeader line }
  else
    let st' :=
      if startsWith delPat line = true then { st with in_delete := true }
      else if startsWith newPat line = true then { st with in_new := true }
      else st
    if (!st'.in_new && !st'.in_delete) = true then
      { st' with filtered := st'.filtered ++ [line] }
    else st'

/-- The whole normalization loop over the diff's lines. -/
def scanDiff (ls : List Str) : ScanState := ls.foldl scanLine initState

/-- A bulleted summary line: `format!("• {}\n", file)` (`main.rs` lines
279 and 285). -/
def bullet (f : Str) : Str := '•' :: ' ' :: (f ++ ['\n'])

/-- The summary of new and deleted files (`main.rs` lines 275-287). -/
def buildSummary (nf df : List Str) : Str :=
  (if nf = [] then [] else '\n' :: ("New files:".toList ++ '\n' :: (nf.map bullet).flatten))
  ++ (if df = [] then [] else '\n' :: ("Deleted files:".toList ++ '\n' :: (df.map bullet).flatten))

/-- The normalized text `filtered_lines.join("\n") + summary` built by
`get_diff_from_git` before its emptiness check (`main.rs` lines
289-290). -/
def normalizedText (diff : Str) : Str :=
  let st := flushCurrent (scanDiff (rustLines diff))
  joinNL st.filtered ++ buildSummary st.new_files st.deleted_files

/-- The error raised when the normalized diff is empty: `anyhow::bail!("No
diff content found")` (`main.rs` line 293). -/
inductive DiffError
  | emptyDiff
deriving DecidableEq, Repr

/-- The pure tail of `get_diff_from_git` (`main.rs` lines 222-296): the
normalization loop, the summary, and the `filtered_diff.trim().is_empty()`
check. -/
def normalizeDiff (diff : Str) : Except DiffError Str :=
  let t := normalizedText diff
  if rustTrim t = [] then .error .emptyDiff else .ok t

/-- The marker line inserted between the kept head and tail of a truncated
diff (`main.rs` line 308). -/
def truncMarkerLine : Str := "[...diff truncated...]".toList

/-- The full inserted separator `"\n[...diff truncated...]\n"`. -/
def truncMid : Str := "\n[...diff truncated...]\n".toList

/-- Embeds `truncate_diff` (`main.rs` lines 299-312): keeps everything when
the line count is within the bound, else keeps the first and last
`max_lines/2` lines around the marker, always reporting the original line
count. -/
def truncate_diff (diff : Str) (max_lines : Nat) : Str × Nat :=
  let lines := rustLines diff
  let original_len := lines.length
  if lines.length ≤ max_lines then (diff, original_len)
  else
    (joinNL (lines.take (max_lines / 2)) ++ truncMid
       ++ joinNL (lines.drop (lines.length - max_lines / 2)),
     original_len)

/-- Embeds Rust `str::len()`: the length of the text in UTF-8 bytes. -/
def rustStrLen (s : Str) : Nat := (s.map Char.utf8Size).sum

/-- Embeds `estimate_tokens` (`main.rs` lines 314-317):
`(text.len() as f64 / 3.5).ceil() as usize`.  Over the natural numbers the
exact value of that expression is the ceiling of `2·len/7`, i.e.
`(2·len + 6) / 7`: for every length below `2^51` the IEEE double division
by 3.5 is close enough to the exact rational that its ceiling agrees with
the exact ceiling (the exact quotient is at least `1/7` away from any
integer it does not equal). -/
def estimate_tokens (text : Str) : Nat := (2 * rustStrLen text + 6) / 7

/-- Modelled from the spec: the spec words the estimate as "input text
length in characters divided by a fixed constant (3.5), rounded up"; this
is that formula, with the length taken in characters, for comparison with
the code's byte-based `estimate_tokens`. -/
def estimate_tokens_chars (text : Str) : Nat := (2 * text.length + 6) / 7

/-- Mirrors the `Config` structure (`main.rs` lines 91-100). -/
structure Config where
  openai_api_key : Option Str
  claude_api_key : Option Str
  openai_endpoint : Option Str
  claude_endpoint : Option Str
  openai_model : Option Str
  claude_model : Option Str
  provider : Option Str
deriving DecidableEq, Repr

/-- Mirrors the `ApiProvider` enum (`main.rs` lines 13-18). -/
inductive ApiProvider
  | openAi
  | claude
deriving DecidableEq, Repr

/-- The provider-selected credential environment variable name
(`main.rs` lines 431-442). -/
def env_var_key : ApiProvider → Str
  | .openAi => "OPENAI_API_KEY".toList
  | .claude => "ANTHROPIC_API_KEY".toList

/-- The provider's API key from the config file (`main.rs` lines
448-451). -/
def config_api_key (config : Config) : ApiProvider → Option Str
  | .openAi => config.openai_api_key
  | .claude => config.claude_api_key

/-- The provider's endpoint from the config file (`main.rs` lines
457-460). -/
def config_endpoint (config : Config) : ApiProvider → Option Str
  | .openAi => config.openai_endpoint
  | .claude => config.claude_endpoint

/-- The provider's model from the config file (`main.rs` lines
465-468). -/
def config_model (config : Config) : ApiProvider → Option Str
  | .openAi => config.openai_model
  | .claude => config.claude_model

/-- The built-in default endpoint per provider (`main.rs` lines
431-442). -/
def default_endpoint : ApiProvider → Str
  | .openAi => "https://api.openai.com/v1/chat/completions".toList
  | .claude => "https://api.anthropic.com/v1/messages".toList

/-- The built-in default model per provider (`main.rs` lines 431-442). -/
def default_model : ApiProvider → Str
  | .openAi => "gpt-4-turbo".toList
  | .claude => "claude-3-7-sonnet-20250219".toList

/-- The API-key resolution of `main` (`main.rs` lines 445-453): the
command-line flag, else the provider's environment variable, else the
provider's config-file entry.  The environment is modelled as a partial
map from variable names to values. -/
def resolve_api_key (cli_api_key : Option Str) (env : Str → Option Str)
    (config : Config) (provider : ApiProvider) : Option Str :=
  cli_api_key.orElse fun _ =>
    (env (env_var_key provider)).orElse fun _ =>
      config_api_key config provider

/-- The configuration error raised when no source supplies an API key
(`main.rs` line 453). -/
inductive ConfigError
  | missingApiKey
deriving DecidableEq, Repr

/-- The API-key step of `main` including its failure, where the missing
key becomes a configuration error (`main.rs` lines 445-453). -/
def api_key_startup (cli_api_key : Option Str) (env : Str → Option Str)
    (config : Config) (provider : ApiProvider) : Except ConfigError Str :=
  match resolve_api_key cli_api_key env config provider with
  | some k => .ok k
  | none => .error .missingApiKey

/-- The endpoint resolution of `main` (`main.rs` lines 456-461): flag,
else config file, else built-in default. -/
def resolve_endpoint (cli_endpoint : Option Str) (config : Config)
    (provider : ApiProvider) : Str :=
  cli_endpoint.getD ((config_endpoint config provider).getD (default_endpoint provider))

/-- The model resolution of `main` (`main.rs` lines 464-469): flag, else
config file, else built-in default. -/
def resolve_model (cli_model : Option Str) (config : Config)
    (provider : ApiProvider) : Str :=
  cli_model.getD ((config_model config provider).getD (default_model provider))

/-- The all-empty configuration used when no config file exists
(`main.rs` lines 133-143). -/
def emptyConfig : Config :=
  { openai_api_key := none, claude_api_key := none, openai_endpoint := none,
    claude_endpoint := none, openai_model := none, claude_model := none,
    provider := none }

/-- A diff with a header line, a binary notice and one ordinary line. -/
def mixedHeaderDiff : Str :=
  "diff --git a/f b/f\nBinary files a/f and b/f differ\nhello".toList

/-- A two-line diff with no special lines at all. -/
def plainDiff : Str := "hello\nworld".toList

/-- A diff consisting solely of one added file. -/
def addedOnlyDiff : Str := "diff --git a/f b/f\n--- /dev/null\n+++ b/f\n+x".toList

/-- The normalization of `addedOnlyDiff`: empty line content plus the
new-files summary. -/
def addedSummary : Str := "\nNew files:\n• f\n".toList

/-- A four-line diff whose first line ends in a carriage return that is
part of the line's content. -/
def crDiff : Str := "x\r\r\ny\nz\nw".toList

/-- A plain five-line diff. -/
def fiveLines : Str := "a\nb\nc\nd\ne".toList

/-- A four-line diff whose final line is empty. -/
def blankTailDiff : Str := "a\nb\nc\n\n".toList

/-- A plain four-line diff. -/
def fourLines : Str := "a\nb\nc\nd".toList

/-- A plain two-line diff. -/
def twoLines : Str := "a\nb".toList

/-- A diff with a context line, one added file, and a following ordinary
file section. -/
def addedMidDiff : Str :=
  "ctx\ndiff --git a/g b/g\n--- /dev/null\n+++ b/g\n+y\ndiff --git a/h b/h\n z".toList

/-- The context line of `addedMidDiff`. -/
def ctxLine : Str := "ctx".toList

/-- The header of the added file `g` in `addedMidDiff`. -/
def gHeader : Str := "diff --git a/g b/g".toList

/-- The header of the trailing file section in `addedMidDiff`. -/
def hHeader : Str := "diff --git a/h b/h".toList

/-- The null-device pre-image marker line itself. -/
def nullMarker : Str := "--- /dev/null".toList

/-- The post-image header of the added file in `addedMidDiff`. -/
def plusB : Str := "+++ b/g".toList

/-- The single added hunk-body line in `addedMidDiff`. -/
def plusY : Str := "+y".toList

/-- The context line of the trailing file section in `addedMidDiff`. -/
def zLine : Str := " z".toList

/-- The path of the added file in `addedMidDiff`. -/
def gPath : Str := "g".toList

/-- Four two-byte characters: the text for which byte length and character
count of the token estimate differ. -/
def accented : Str := "éééé".toList

/-- A header whose repository path itself begins with `a/`. -/
def aaHeader : Str := "diff --git a/a/x b/x".toList

/-- The stripped source-side path marker `a/`. -/
def aSlash : Str := "a/".toList

/-- A sample path that does not begin with `a/`. -/
def xPath : Str := "x".toList

/-- A sample API key value. -/
def sampleKey : Str := "k".toList

/-- Every line of `s` (in the sense of a split at every line feed) fails
the per-file header test. -/
def noHeaderLine (s : Str) : Prop :=
  ∀ p ∈ splitBy '\n' s, startsWith headerPat p = false

/-- Well-formedness of a scan state reached from line input: accumulated
lines and paths contain no line feed, and accumulated lines are never
header lines. -/
def StateWf (st : ScanState) : Prop :=
  (∀ l ∈ st.filtered, '\n' ∉ l ∧ startsWith headerPat l = false) ∧
  (∀ f ∈ st.new_files, '\n' ∉ f) ∧
  (∀ f ∈ st.deleted_files, '\n' ∉ f) ∧
  (∀ f, st.current_file = some f → '\n' ∉ f)

/-- The fields of the scan state that drive the remaining scan behaviour:
two states agreeing on them keep agreeing on them and on every filtered
line they go on to accumulate. -/
def StEquiv (s t : ScanState) : Prop :=
  s.filtered = t.filtered ∧ s.current_file = t.current_file ∧
  s.in_new = t.in_new ∧ s.in_delete = t.in_delete

/- ===================  basic lemmas: splitting and joining  =============== -/

theorem splitBy_ne_nil (sep : Char) (s : Str) : splitBy sep s ≠ [] := by
  induction s with
  | nil => simp [splitBy]
  | cons c cs ih =>
    by_cases h : c = sep
    · simp [splitBy, h]
    · simp only [splitBy, if_neg h]
      cases hs : splitBy sep cs with
      | nil => exact absurd hs ih
      | cons p ps => simp [consHead]

theorem mem_splitBy_not_sep (sep : Char) (s : Str) :
    ∀ p ∈ splitBy sep s, sep ∉ p := by
  induction s with
  | nil =>
    intro p hp
    have hp' : p = [] := by simpa [splitBy] using hp
    subst hp'; simp
  | cons c cs ih =>
    intro p hp
    by_cases h : c = sep
    · simp only [splitBy, if_pos h] at hp
      rcases List.mem_cons.mp hp with rfl | hp
      · simp
      · exact ih p hp
    · simp only [splitBy, if_neg h] at hp
      cases hs : splitBy sep cs with
      | nil => exact absurd hs (splitBy_ne_nil sep cs)
      | cons q qs =>
        rw [hs] at hp
        simp only [consHead, List.mem_cons] at hp
        rcases hp with hp | hp
        · subst hp
          intro hmem
          rcases List.mem_cons.mp hmem with hc | hc
          · exact h hc.symm
          · exact ih q (hs ▸ List.mem_cons_self q qs) hc
        · exact ih p (hs ▸ List.mem_cons_of_mem q hp)

theorem mem_splitBy_sub (sep : Char) (s : Str) :
    ∀ p ∈ splitBy sep s, ∀ c ∈ p, c ∈ s := by
  induction s with
  | nil =>
    intro p hp
    have hp' : p = [] := by simpa [splitBy] using hp
    subst hp'; simp
  | cons a cs ih =>
    intro p hp c hc
    by_cases h : a = sep
    · simp only [splitBy, if_pos h] at hp
      rcases List.mem_cons.mp hp with rfl | hp
      · simp at hc
      · exact List.mem_cons_of_mem a (ih p hp c hc)
    · simp only [splitBy, if_neg h] at hp
      cases hs : splitBy sep cs with
      | nil => exact absurd hs (splitBy_ne_nil sep cs)
      | cons q qs =>
        rw [hs] at hp
        simp only [consHead, List.mem_cons] at hp
        rcases hp with hp | hp
        · subst hp
          rcases List.mem_cons.mp hc with hc | hc
          · exact hc ▸ List.mem_cons_self a cs
          · exact List.mem_cons_of_mem a
              (ih q (hs ▸ List.mem_cons_self q qs) c hc)
        · exact List.mem_cons_of_mem a
            (ih p (hs ▸ List.mem_cons_of_mem q hp) c hc)

theorem consHead_append (c : Char) (xs ys : List Str) (h : xs ≠ []) :
    consHead c (xs ++ ys) = consHead c xs ++ ys := by
  cases xs with
  | nil => exact absurd rfl h
  | cons p ps => simp [consHead]

theorem splitBy_append_sep (sep : Char) (a b : Str) :
    splitBy sep (a ++ sep :: b) = splitBy sep a ++ splitBy sep b := by
  induction a with
  | nil => simp [splitBy]
  | cons c cs ih =>
    by_cases h : c = sep
    · simp [splitBy, h, ih]
    · have e1 : splitBy sep ((c :: cs) ++ sep :: b)
          = consHead c (splitBy sep (cs ++ sep :: b)) := by
        simp [splitBy, if_neg h]
      have e2 : splitBy sep (c :: cs) = consHead c (splitBy sep cs) := by
        simp [splitBy, if_neg h]
      rw [e1, ih, consHead_append c _ _ (splitBy_ne_nil sep cs), e2]

theorem splitBy_no_sep (sep : Char) (a : Str) (h : sep ∉ a) :
    splitBy sep a = [a] := by
  induction a with
  | nil => rfl
  | cons c cs ih =>
    have hc : ¬ c = sep := fun hc => h (hc ▸ List.mem_cons_self c cs)
    have hcs : sep ∉ cs := fun hm => h (List.mem_cons_of_mem c hm)
    simp [splitBy, if_neg hc, ih hcs, consHead]

theorem joinNL_cons (p : Str) (ps : List Str) (h : ps ≠ []) :
    joinNL (p :: ps) = p ++ '\n' :: joinNL ps := by
  cases ps with
  | nil => exact absurd rfl h
  | cons q qs => rfl

theorem joinNL_append (a b : List Str) (ha : a ≠ []) (hb : b ≠ []) :
    joinNL (a ++ b) = joinNL a ++ '\n' :: joinNL b := by
  induction a with
  | nil => exact absurd rfl ha
  | cons p ps ih =>
    cases ps with
    | nil =>
      cases b with
      | nil => exact absurd rfl hb
      | cons q qs => simp [joinNL]
    | cons p' ps' =>
      have hne : (p' :: ps') ++ b ≠ [] := by simp
      calc joinNL ((p :: p' :: ps') ++ b)
          = p ++ '\n' :: joinNL ((p' :: ps') ++ b) := by
            rw [List.cons_append, joinNL_cons _ _ hne]
        _ = p ++ '\n' :: (joinNL (p' :: ps') ++ '\n' :: joinNL b) := by
            rw [ih (by simp)]
        _ = joinNL (p :: p' :: ps') ++ '\n' :: joinNL b := by
            rw [joinNL_cons p (p' :: ps') (by simp)]; simp

theorem splitBy_joinNL (ps : List Str) (hne : ps ≠ [])
    (h : ∀ p ∈ ps, '\n' ∉ p) :
    splitBy '\n' (joinNL ps) = ps := by
  induction ps with
  | nil => exact absurd rfl hne
  | cons p ps ih =>
    cases ps with
    | nil =>
      simp only [joinNL]
      exact splitBy_no_sep '\n' p (h p (List.mem_cons_self p []))
    | cons p' ps' =>
      rw [joinNL_cons p (p' :: ps') (by simp), splitBy_append_sep,
        splitBy_no_sep '\n' p (h p (List.mem_cons_self p _)),
        ih (by simp) (fun q hq => h q (List.mem_cons_of_mem p hq))]
      rfl

theorem linesAux_append_single (ps : List Str) (q : Str) :
    linesAux (ps ++ [q]) = ps.map stripCR ++ (if q = [] then [] else [q]) := by
  induction ps with
  | nil => simp [linesAux]
  | cons p ps ih =>
    cases ps with
    | nil => simp [linesAux]
    | cons p' ps' =>
      simp only [List.cons_append] at ih ⊢
      simp [linesAux, ih]

theorem mem_linesAux (ps : List Str) :
    ∀ l ∈ linesAux ps, ∃ p ∈ ps, l = stripCR p ∨ l = p := by
  induction ps with
  | nil => intro l hl; simp [linesAux] at hl
  | cons p ps ih =>
    intro l hl
    cases ps with
    | nil =>
      by_cases hp : p = []
      · simp [linesAux, hp] at hl
      · simp only [linesAux, if_neg hp, List.mem_singleton] at hl
        exact ⟨p, List.mem_cons_self p [], Or.inr hl⟩
    | cons p' ps' =>
      simp only [linesAux, List.mem_cons] at hl
      rcases hl with hl | hl
      · exact ⟨p, List.mem_cons_self p _, Or.inl hl⟩
      · obtain ⟨r, hr, hlr⟩ := ih l hl
        exact ⟨r, List.mem_cons_of_mem p hr, hlr⟩

theorem stripCR_decomp (l : Str) : ∃ t, l = stripCR l ++ t := by
  induction l with
  | nil => exact ⟨[], rfl⟩
  | cons c cs ih =>
    cases cs with
    | nil =>
      by_cases hc : c = '\r'
      · exact ⟨[c], by simp [stripCR, hc]⟩
      · exact ⟨[], by simp [stripCR, hc]⟩
    | cons c' cs' =>
      obtain ⟨t, ht⟩ := ih
      exact ⟨t, by rw [stripCR]; nth_rewrite 1 [ht]; rfl⟩

theorem stripCR_sublist (l : Str) : ∀ c ∈ stripCR l, c ∈ l := by
  intro c hc
  obtain ⟨t, ht⟩ := stripCR_decomp l
  rw [ht]
  exact List.mem_append_left t hc

theorem startsWith_iff (pat s : Str) :
    startsWith pat s = true ↔ ∃ t, s = pat ++ t := by
  induction pat generalizing s with
  | nil => simp [startsWith]
  | cons p ps ih =>
    cases s with
    | nil =>
      simp only [startsWith, List.cons_append]
      constructor
      · intro h; cases h
      · rintro ⟨t, ht⟩; cases ht
    | cons c cs =>
      simp only [startsWith, Bool.and_eq_true, beq_iff_eq, ih, List.cons_append]
      constructor
      · rintro ⟨rfl, t, rfl⟩; exact ⟨t, rfl⟩
      · rintro ⟨t, ht⟩
        injection ht with h1 h2
        exact ⟨h1.symm, t, h2⟩

theorem startsWith_stripCR (pat l : Str)
    (h : startsWith pat (stripCR l) = true) : startsWith pat l = true := by
  rw [startsWith_iff] at h ⊢
  obtain ⟨t, ht⟩ := h
  obtain ⟨u, hu⟩ := stripCR_decomp l
  exact ⟨t ++ u, by rw [hu, ht, List.append_assoc]⟩

theorem mem_rustLines_no_nl (s : Str) : ∀ l ∈ rustLines s, '\n' ∉ l := by
  intro l hl
  obtain ⟨p, hp, hlp⟩ := mem_linesAux _ l hl
  have hnp : '\n' ∉ p := mem_splitBy_not_sep '\n' s p hp
  rcases hlp with rfl | rfl
  · exact fun hc => hnp (stripCR_sublist p _ hc)
  · exact hnp

/- ===================  basic lemmas: substring search  ==================== -/

theorem startsWith_self_append (pat t : Str) :
    startsWith pat (pat ++ t) = true :=
  (startsWith_iff pat _).mpr ⟨t, rfl⟩

theorem startsWith_append_right (pat s t : Str)
    (h : startsWith pat s = true) : startsWith pat (s ++ t) = true := by
  rw [startsWith_iff] at h ⊢
  obtain ⟨u, rfl⟩ := h
  exact ⟨u ++ t, by rw [List.append_assoc]⟩

theorem occursIn_of_startsWith (pat s : Str)
    (h : startsWith pat s = true) : occursIn pat s = true := by
  cases s with
  | nil => simpa [occursIn] using h
  | cons c cs => simp [occursIn, h]

theorem occursIn_cons (pat : Str) (c : Char) (s : Str)
    (h : occursIn pat s = true) : occursIn pat (c :: s) = true := by
  simp [occursIn, h]

theorem occursIn_append_right (pat a b : Str)
    (h : occursIn pat b = true) : occursIn pat (a ++ b) = true := by
  induction a with
  | nil => simpa using h
  | cons c cs ih => exact occursIn_cons pat c _ ih

theorem occursIn_append_left (pat a b : Str)
    (h : occursIn pat a = true) : occursIn pat (a ++ b) = true := by
  induction a with
  | nil =>
    simp only [occursIn] at h
    have : pat = [] := by
      cases pat with
      | nil => rfl
      | cons p ps => simp [startsWith] at h
    subst this
    cases b with
    | nil => simp [occursIn, startsWith]
    | cons c cs => simp [occursIn, startsWith]
  | cons c cs ih =>
    simp only [occursIn, Bool.or_eq_true] at h
    rcases h with h | h
    · exact occursIn_of_startsWith pat _
        (by simpa using startsWith_append_right pat (c :: cs) b h)
    · exact occursIn_cons pat c _ (ih h)

theorem mem_of_occursIn (pat s : Str) (h : occursIn pat s = true) :
    ∀ c ∈ pat, c ∈ s := by
  induction s with
  | nil =>
    simp only [occursIn] at h
    intro c hc
    cases pat with
    | nil => simp at hc
    | cons p ps => simp [startsWith] at h
  | cons a as ih =>
    simp only [occursIn, Bool.or_eq_true] at h
    intro c hc
    rcases h with h | h
    · obtain ⟨t, ht⟩ := (startsWith_iff pat _).mp h
      rw [ht]
      exact List.mem_append_left t hc
    · exact List.mem_cons_of_mem a (ih h c hc)

/- ===================  basic lemmas: trimming  ============================ -/

theorem trimStartWs_eq_nil_iff (s : Str) :
    trimStartWs s = [] ↔ ∀ c ∈ s, rustIsWhitespace c = true := by
  induction s with
  | nil => simp [trimStartWs]
  | cons c cs ih =>
    by_cases h : rustIsWhitespace c = true
    · simp [trimStartWs, h, ih]
    · simp [trimStartWs, h]

theorem trimStartWs_all_iff (s : Str) :
    (∀ c ∈ trimStartWs s, rustIsWhitespace c = true) ↔
      (∀ c ∈ s, rustIsWhitespace c = true) := by
  induction s with
  | nil => simp [trimStartWs]
  | cons c cs ih =>
    by_cases h : rustIsWhitespace c = true
    · simp only [trimStartWs, if_pos h, ih]
      constructor
      · intro ha d hd
        rcases List.mem_cons.mp hd with rfl | hd
        · exact h
        · exact ha d hd
      · intro ha d hd; exact ha d (List.mem_cons_of_mem c hd)
    · simp [trimStartWs, if_neg h]

theorem rustTrim_eq_nil_iff (s : Str) :
    rustTrim s = [] ↔ ∀ c ∈ s, rustIsWhitespace c = true := by
  rw [rustTrim, trimStartWs_eq_nil_iff]
  constructor
  · intro h c hc
    have h' := (trimStartWs_all_iff s.reverse).mp
      (by intro d hd; exact h d (List.mem_reverse.mpr hd))
    exact h' c (List.mem_reverse.mpr hc)
  · intro h c hc
    have hrev : ∀ c ∈ s.reverse, rustIsWhitespace c = true := by
      intro d hd; exact h d (List.mem_reverse.mp hd)
    have h' := (trimStartWs_all_iff s.reverse).mpr hrev
    exact h' c (List.mem_reverse.mp hc)

theorem rustTrim_ne_nil_of_mem (s : Str) (c : Char) (hc : c ∈ s)
    (hw : rustIsWhitespace c = false) : rustTrim s ≠ [] := by
  intro h
  have := (rustTrim_eq_nil_iff s).mp h c hc
  rw [hw] at this
  cases this

/- ===================  scan-step lemmas  ================================== -/

theorem scanLine_bin (st : ScanState) (l : Str)
    (h : startsWith binPat l = true) : scanLine st l = st := by
  simp [scanLine, h]

theorem scanLine_header (st : ScanState) (l : Str)
    (hb : startsWith binPat l = false) (hh : startsWith headerPat l = true) :
    scanLine st l = { (flushCurrent st) with
      in_delete := false, in_new := false, current_file := pathFromHeader l } := by
  simp [scanLine, hb, hh]

theorem scanLine_clean (st : ScanState) (l : Str)
    (hb : startsWith binPat l = false) (hh : startsWith headerPat l = false)
    (hd : startsWith delPat l = false) (hn : startsWith newPat l = false)
    (hnew : st.in_new = false) (hdel : st.in_delete = false) :
    scanLine st l = { st with filtered := st.filtered ++ [l] } := by
  simp [scanLine, hb, hh, hd, hn, hnew, hdel]

theorem scanLine_not_header (st : ScanState) (l : Str)
    (hh : startsWith headerPat l = false) :
    (scanLine st l).current_file = st.current_file ∧
    (scanLine st l).new_files = st.new_files ∧
    (scanLine st l).deleted_files = st.deleted_files ∧
    (st.in_new = true → (scanLine st l).in_new = true ∧
      (scanLine st l).filtered = st.filtered) := by
  by_cases hb : startsWith binPat l = true
  · simp [scanLine, hb]
  · simp only [Bool.not_eq_true] at hb
    by_cases hd : startsWith delPat l = true
    · simp only [scanLine, hb, hh, hd]
      simp only [Bool.false_eq_true, if_false, if_true]
      refine ⟨?_, ?_, ?_, ?_⟩ <;> intros <;>
        simp_all [Bool.and_eq_true]
    · by_cases hn : startsWith newPat l = true
      · simp only [scanLine, hb, hh, hd, hn]
        simp only [Bool.false_eq_true, if_false, if_true]
        refine ⟨?_, ?_, ?_, ?_⟩ <;> intros <;>
          simp_all [Bool.and_eq_true]
      · simp only [scanLine, hb, hh, hd, hn]
        simp only [Bool.false_eq_true, if_false]
        refine ⟨?_, ?_, ?_, ?_⟩ <;> intros <;>
          simp_all [Bool.and_eq_true] <;> split <;> simp_all

theorem flushCurrent_filtered (st : ScanState) :
    (flushCurrent st).filtered = st.filtered := by
  rw [flushCurrent]
  cases st.current_file <;> [rfl; (split_ifs <;> rfl)]

theorem flushCurrent_new_files_mono (st : ScanState) :
    ∃ t, (flushCurrent st).new_files = st.new_files ++ t := by
  rw [flushCurrent]
  cases st.current_file with
  | none => exact ⟨[], by simp⟩
  | some f =>
    split_ifs
    · exact ⟨[f], rfl⟩
    · exact ⟨[], by simp⟩
    · exact ⟨[], by simp⟩

theorem flushCurrent_some_new (st : ScanState) (f : Str)
    (hc : st.current_file = some f) (hn : st.in_new = true) :
    (flushCurrent st).new_files = st.new_files ++ [f] := by
  rw [flushCurrent, hc]
  simp [hn]

theorem scanLine_new_files_mono (st : ScanState) (l : Str) :
    ∃ t, (scanLine st l).new_files = st.new_files ++ t := by
  by_cases hb : startsWith binPat l = true
  · exact ⟨[], by simp [scanLine_bin st l hb]⟩
  · by_cases hh : startsWith headerPat l = true
    · rw [scanLine_header st l (by simp [hb]) hh]
      obtain ⟨t, ht⟩ := flushCurrent_new_files_mono st
      exact ⟨t, ht⟩
    · exact ⟨[], by
        simp [(scanLine_not_header st l (by simp [hh])).2.1]⟩

theorem scan_new_files_mono (ls : List Str) :
    ∀ st : ScanState, ∃ t, (ls.foldl scanLine st).new_files = st.new_files ++ t := by
  induction ls with
  | nil => intro st; exact ⟨[], by simp⟩
  | cons l ls ih =>
    intro st
    obtain ⟨t1, ht1⟩ := scanLine_new_files_mono st l
    obtain ⟨t2, ht2⟩ := ih (scanLine st l)
    exact ⟨t1 ++ t2, by rw [List.foldl_cons, ht2, ht1, List.append_assoc]⟩

theorem scan_clean_lines (ls : List Str) : ∀ st : ScanState,
    st.in_new = false → st.in_delete = false →
    (∀ l ∈ ls, startsWith binPat l = false ∧ startsWith headerPat l = false ∧
               startsWith delPat l = false ∧ startsWith newPat l = false) →
    ls.foldl scanLine st = { st with filtered := st.filtered ++ ls } := by
  induction ls with
  | nil => intro st _ _ _; simp
  | cons l ls ih =>
    intro st hn hd hcl
    obtain ⟨hb, hh, hdp, hnp⟩ := hcl l (List.mem_cons_self l ls)
    rw [List.foldl_cons, scanLine_clean st l hb hh hdp hnp hn hd]
    rw [ih { st with filtered := st.filtered ++ [l] } hn hd
        (fun x hx => hcl x (List.mem_cons_of_mem l hx))]
    simp

/- ===================  Claim C1  ========================================== -/

/-- Claim C1, amended: for a RawDiff containing no null-device markers and
also no per-file header lines and no binary-file notices, the normalized
diff's line content is the input's line content verbatim with no summary
appended (the code unconditionally consumes header lines and drops binary
notices, so the claim's original wording fails on any real diff — see the
counterexample). -/
theorem normalize_verbatim (d out : Str)
    (hclean : ∀ l ∈ rustLines d,
      startsWith binPat l = false ∧ startsWith headerPat l = false ∧
      startsWith delPat l = false ∧ startsWith newPat l = false)
    (hok : normalizeDiff d = .ok out) :
    out = joinNL (rustLines d) := by
  have hscan : scanDiff (rustLines d)
      = { initState with filtered := [] ++ rustLines d } :=
    scan_clean_lines _ initState rfl rfl hclean
  have htext : normalizedText d = joinNL (rustLines d) := by
    simp [normalizedText, hscan, initState, flushCurrent, buildSummary]
  simp only [normalizeDiff] at hok
  by_cases h : rustTrim (normalizedText d) = []
  · rw [if_pos h] at hok; cases hok
  · rw [if_neg h] at hok
    injection hok with h2
    rw [← h2, htext]

/-- Counterexample to claim C1 as stated: a diff with a header line and a
binary notice but no null-device markers normalizes to just `hello`, so
its line content is not the input's line content. -/
theorem normalize_verbatim_cex :
    normalizeDiff mixedHeaderDiff = .ok ("hello".toList) ∧
    rustLines ("hello".toList) ≠ rustLines mixedHeaderDiff := by
  refine ⟨rfl, by decide⟩

/-- Witness for C1 at the concrete two-line diff `hello\nworld`. -/
theorem normalize_verbatim_w :
    normalizeDiff plainDiff = .ok (joinNL (rustLines plainDiff)) := by
  have h : normalizeDiff plainDiff = .ok plainDiff := rfl
  have h2 := normalize_verbatim plainDiff plainDiff (by decide) h
  rw [← h2]
  exact h

/- ===================  Claim C2  ========================================== -/

/-- Claim C2, amended: normalization fails with the EmptyDiff error exactly
when the final normalized text (surviving lines plus appended summary) is
empty or whitespace-only; in particular it fails for a literally empty
input, but an input consisting solely of added files does NOT fail: its
non-empty New-files summary makes the final text non-whitespace (see the
counterexample). -/
theorem empty_diff_iff :
    (∀ d : Str, normalizeDiff d = .error .emptyDiff ↔
      rustTrim (normalizedText d) = []) ∧
    normalizeDiff [] = .error .emptyDiff ∧
    (∀ d : Str, (flushCurrent (scanDiff (rustLines d))).new_files ≠ [] →
      normalizeDiff d = .ok (normalizedText d)) := by
  refine ⟨?_, rfl, ?_⟩
  · intro d
    by_cases h : rustTrim (normalizedText d) = []
    · simp [normalizeDiff, h]
    · simp [normalizeDiff, h]
  · intro d hnf
    have hN : 'N' ∈ buildSummary (flushCurrent (scanDiff (rustLines d))).new_files
        (flushCurrent (scanDiff (rustLines d))).deleted_files := by
      rw [buildSummary, if_neg hnf]
      apply List.mem_append_left
      exact List.mem_cons_of_mem _ (List.mem_append_left _ (by decide))
    have hN' : 'N' ∈ normalizedText d := by
      simp only [normalizedText]
      exact List.mem_append_right _ hN
    have hne := rustTrim_ne_nil_of_mem _ 'N' hN' (by decide)
    simp [normalizeDiff, hne]

/-- Counterexample to claim C2 as stated: an input consisting solely of one
added file normalizes successfully to the New-files summary instead of
failing with EmptyDiff. -/
theorem empty_diff_iff_cex :
    normalizeDiff addedOnlyDiff = .ok addedSummary := rfl

/-- Witness for C2: the added-file clause applied at `addedOnlyDiff` and
the empty-input clause. -/
theorem empty_diff_iff_w :
    normalizeDiff addedOnlyDiff = .ok (normalizedText addedOnlyDiff) ∧
    normalizeDiff [] = .error .emptyDiff :=
  ⟨empty_diff_iff.2.2 addedOnlyDiff (by decide), empty_diff_iff.2.1⟩

/- ===================  truncation lemmas  ================================= -/

theorem truncMid_eq : truncMid = '\n' :: (truncMarkerLine ++ ['\n']) := by decide

theorem truncate_keep (d : Str) (M : Nat) (h : (rustLines d).length ≤ M) :
    truncate_diff d M = (d, (rustLines d).length) := by
  simp [truncate_diff, h]

theorem truncate_out (d : Str) (M : Nat) (h : M < (rustLines d).length) :
    (truncate_diff d M).1 = joinNL ((rustLines d).take (M / 2)) ++ truncMid
        ++ joinNL ((rustLines d).drop ((rustLines d).length - M / 2)) ∧
    (truncate_diff d M).2 = (rustLines d).length := by
  have hn : ¬ (rustLines d).length ≤ M := Nat.not_le.mpr h
  constructor <;> simp [truncate_diff, hn]

theorem splitBy_trunc (d : Str) (M : Nat) (h2 : 2 ≤ M)
    (hL : M < (rustLines d).length) :
    splitBy '\n' (truncate_diff d M).1
      = (rustLines d).take (M / 2)
        ++ truncMarkerLine :: (rustLines d).drop ((rustLines d).length - M / 2) := by
  have hfl : ((rustLines d).take (M / 2)).length = M / 2 := by
    rw [List.length_take]; omega
  have hll : ((rustLines d).drop ((rustLines d).length - M / 2)).length = M / 2 := by
    rw [List.length_drop]; omega
  have hfne : (rustLines d).take (M / 2) ≠ [] := by
    intro he; rw [he] at hfl; simp at hfl; omega
  have hlne : (rustLines d).drop ((rustLines d).length - M / 2) ≠ [] := by
    intro he; rw [he] at hll; simp at hll; omega
  have hfNL : ∀ p ∈ (rustLines d).take (M / 2), '\n' ∉ p :=
    fun p hp => mem_rustLines_no_nl d p (List.mem_of_mem_take hp)
  have hlNL : ∀ p ∈ (rustLines d).drop ((rustLines d).length - M / 2), '\n' ∉ p :=
    fun p hp => mem_rustLines_no_nl d p (List.mem_of_mem_drop hp)
  rw [(truncate_out d M hL).1]
  have he : joinNL ((rustLines d).take (M / 2)) ++ truncMid
      ++ joinNL ((rustLines d).drop ((rustLines d).length - M / 2))
      = joinNL ((rustLines d).take (M / 2))
        ++ '\n' :: (truncMarkerLine
          ++ '\n' :: joinNL ((rustLines d).drop ((rustLines d).length - M / 2))) := by
    rw [truncMid_eq]
    simp [List.append_assoc]
  rw [he, splitBy_append_sep, splitBy_joinNL _ hfne hfNL, splitBy_append_sep,
      splitBy_no_sep '\n' truncMarkerLine (by decide), splitBy_joinNL _ hlne hlNL]
  simp

theorem linesAux_no_cr (ps : List Str) (q : Str)
    (hps : ∀ p ∈ ps, stripCR p = p) :
    linesAux (ps ++ [q]) = ps ++ (if q = [] then [] else [q]) := by
  rw [linesAux_append_single]
  have : ps.map stripCR = ps := by
    calc ps.map stripCR = ps.map id := List.map_congr_left hps
      _ = ps := List.map_id ps
  rw [this]

/- ===================  Claim C5  ========================================== -/

/-- Claim C5 (confirmed): for a diff whose line count is at most the bound,
`truncate_diff` returns the input text unchanged together with its line
count. -/
theorem truncate_diff_noop (d : Str) (M : Nat)
    (h : (rustLines d).length ≤ M) :
    truncate_diff d M = (d, (rustLines d).length) :=
  truncate_keep d M h

/-- Witness for C5 at a two-line diff with bound 5. -/
theorem truncate_diff_noop_w :
    truncate_diff twoLines 5 = (twoLines, (rustLines twoLines).length) ∧
    (rustLines twoLines).length = 2 :=
  ⟨truncate_diff_noop twoLines 5 (by decide), by decide⟩

/- ===================  Claim C4  ========================================== -/

/-- Claim C4, amended: for bounds `M ≥ 2` and a diff with `L > M` lines
whose final line is nonempty, `truncate_diff` returns the first `M/2`
lines and the last `M/2` lines joined by the single marker line, reports
the original line count `L`, and the output's line count excluding the
marker is `M` for even `M` and `M - 1` for odd `M`.  (For `M = 1` both
kept halves are empty and the output is a bare marker framed by an empty
line, and when the final kept line is empty the rejoined text ends in a
line feed that `lines()` does not count, so the original unrestricted
count law fails — see the counterexample.) -/
theorem truncate_diff_shape (d : Str) (M : Nat) (h2 : 2 ≤ M)
    (hL : M < (rustLines d).length)
    (hlast : (rustLines d).getLast? ≠ some []) :
    (truncate_diff d M).1 = joinNL ((rustLines d).take (M / 2)) ++ truncMid
        ++ joinNL ((rustLines d).drop ((rustLines d).length - M / 2)) ∧
    (truncate_diff d M).2 = (rustLines d).length ∧
    (rustLines (truncate_diff d M).1).length - 1
      = (if M % 2 = 0 then M else M - 1) := by
  refine ⟨(truncate_out d M hL).1, (truncate_out d M hL).2, ?_⟩
  have hll : ((rustLines d).drop ((rustLines d).length - M / 2)).length = M / 2 := by
    rw [List.length_drop]; omega
  have hlne : (rustLines d).drop ((rustLines d).length - M / 2) ≠ [] := by
    intro he; rw [he] at hll; simp at hll; omega
  have hq : ((rustLines d).drop ((rustLines d).length - M / 2)).getLast hlne ≠ [] := by
    intro he
    have h1 := List.getLast?_eq_getLast _ hlne
    rw [he] at h1
    have h2' : ((rustLines d).drop ((rustLines d).length - M / 2)).getLast?
        = (rustLines d).getLast? := by
      rw [List.getLast?_drop, if_neg (by omega)]
    exact hlast (h2' ▸ h1)
  have hdec := List.dropLast_append_getLast hlne
  have hlines : rustLines (truncate_diff d M).1
      = linesAux (((rustLines d).take (M / 2)
          ++ truncMarkerLine :: ((rustLines d).drop ((rustLines d).length - M / 2)).dropLast)
          ++ [((rustLines d).drop ((rustLines d).length - M / 2)).getLast hlne]) := by
    rw [rustLines, splitBy_trunc d M h2 hL]
    congr 1
    rw [List.append_assoc, List.cons_append]
    congr 2
    exact hdec.symm
  rw [hlines, linesAux_append_single, if_neg hq]
  have h1 : (((rustLines d).drop ((rustLines d).length - M / 2)).dropLast).length
      = M / 2 - 1 := by
    rw [List.length_dropLast, hll]
  simp only [List.length_append, List.length_map, List.length_cons, h1,
    List.length_take, List.length_nil]
  by_cases hm : M % 2 = 0
  · rw [if_pos hm]; omega
  · rw [if_neg hm]; omega

/-- Counterexample to claim C4 as stated: for the four-line diff
`a\nb\nc\n\n` (final line empty) and `M = 2`, the truncated output has a
single non-marker line, not `M = 2` of them. -/
theorem truncate_diff_shape_cex :
    2 < (rustLines blankTailDiff).length ∧
    (rustLines (truncate_diff blankTailDiff 2).1).length - 1 ≠ 2 := by decide

/-- Witness for C4 at the four-line diff `a\nb\nc\nd` with bound 2. -/
theorem truncate_diff_shape_w :
    (truncate_diff fourLines 2).1 = joinNL ((rustLines fourLines).take (2 / 2)) ++ truncMid
        ++ joinNL ((rustLines fourLines).drop ((rustLines fourLines).length - 2 / 2)) ∧
    (truncate_diff fourLines 2).2 = (rustLines fourLines).length ∧
    (rustLines (truncate_diff fourLines 2).1).length - 1
      = (if 2 % 2 = 0 then 2 else 2 - 1) :=
  truncate_diff_shape fourLines 2 (by decide) (by decide) (by decide)

/- ===================  Claim C3  ========================================== -/

/-- Claim C3, amended: truncation is idempotent for every bound `M ≥ 1` on
every diff text none of whose lines ends in a carriage return.  (A line
that keeps a trailing carriage return — written `...\r\r\n` in the input —
loses it when the truncated text is split into lines again, so a second
truncation can differ; see the counterexample.) -/
theorem truncate_diff_idem (d : Str) (M : Nat) (hM : 1 ≤ M)
    (hcr : ∀ l ∈ rustLines d, stripCR l = l) :
    (truncate_diff (truncate_diff d M).1 M).1 = (truncate_diff d M).1 := by
  by_cases hle : (rustLines d).length ≤ M
  · simp [truncate_keep d M hle]
  · have hL : M < (rustLines d).length := Nat.lt_of_not_le hle
    rcases Nat.lt_or_ge M 2 with h1 | h2
    · have hM1 : M = 1 := by omega
      subst hM1
      have hout : (truncate_diff d 1).1 = truncMid := by
        have hx := (truncate_out d 1 hL).1
        norm_num at hx
        simpa [joinNL] using hx
      rw [hout]
      decide
    · -- M ≥ 2
      have hll : ((rustLines d).drop ((rustLines d).length - M / 2)).length = M / 2 := by
        rw [List.length_drop]; omega
      have hfl : ((rustLines d).take (M / 2)).length = M / 2 := by
        rw [List.length_take]; omega
      have hlne : (rustLines d).drop ((rustLines d).length - M / 2) ≠ [] := by
        intro he; rw [he] at hll; simp at hll; omega
      have hdec := List.dropLast_append_getLast hlne
      have hlines0 : rustLines (truncate_diff d M).1
          = linesAux (((rustLines d).take (M / 2)
              ++ truncMarkerLine :: ((rustLines d).drop ((rustLines d).length - M / 2)).dropLast)
              ++ [((rustLines d).drop ((rustLines d).length - M / 2)).getLast hlne]) := by
        rw [rustLines, splitBy_trunc d M h2 hL]
        congr 1
        rw [List.append_assoc, List.cons_append]
        congr 2
        exact hdec.symm
      have hmid : ∀ p ∈ (rustLines d).take (M / 2)
          ++ truncMarkerLine :: ((rustLines d).drop ((rustLines d).length - M / 2)).dropLast,
          stripCR p = p := by
        intro p hp
        rcases List.mem_append.mp hp with hp | hp
        · exact hcr p (List.mem_of_mem_take hp)
        · rcases List.mem_cons.mp hp with rfl | hp
          · decide
          · exact hcr p (List.mem_of_mem_drop (List.mem_of_mem_dropLast hp))
      rw [linesAux_no_cr _ _ hmid] at hlines0
      by_cases hqe : ((rustLines d).drop ((rustLines d).length - M / 2)).getLast hlne = []
      · -- the final kept line is empty: the output has 2*(M/2) ≤ M lines
        rw [if_pos hqe, List.append_nil] at hlines0
        have hlen : (rustLines (truncate_diff d M).1).length ≤ M := by
          rw [hlines0]
          simp only [List.length_append, List.length_cons, List.length_dropLast, hll, hfl]
          omega
        simp [truncate_keep _ M hlen]
      · rw [if_neg hqe] at hlines0
        have hlines : rustLines (truncate_diff d M).1
            = (rustLines d).take (M / 2)
              ++ truncMarkerLine :: (rustLines d).drop ((rustLines d).length - M / 2) := by
          rw [hlines0, List.append_assoc, List.cons_append, hdec]
        have hlen : (rustLines (truncate_diff d M).1).length = 2 * (M / 2) + 1 := by
          rw [hlines]
          simp only [List.length_append, List.length_cons, hll, hfl]
          omega
        by_cases hodd : 2 * (M / 2) + 1 ≤ M
        · -- odd M: the output's M lines are within the bound
          simp [truncate_keep _ M (by rw [hlen]; exact hodd)]
        · -- even M: the output has M+1 lines and is truncated to itself
          have hM2 : M = 2 * (M / 2) := by omega
          have hL' : M < (rustLines (truncate_diff d M).1).length := by omega
          rw [(truncate_out _ M hL').1]
          have htake : ((rustLines (truncate_diff d M).1).take (M / 2))
              = (rustLines d).take (M / 2) := by
            rw [hlines]
            exact List.take_left' hfl
          have hidx : (rustLines (truncate_diff d M).1).length - M / 2 = M / 2 + 1 := by
            omega
          have hdrop : ((rustLines (truncate_diff d M).1).drop
                ((rustLines (truncate_diff d M).1).length - M / 2))
              = (rustLines d).drop ((rustLines d).length - M / 2) := by
            rw [hidx, hlines, List.append_cons]
            refine List.drop_left' ?_
            rw [List.length_append, hfl, List.length_singleton]
          rw [htake, hdrop]
          exact ((truncate_out d M hL).1).symm

/-- Counterexample to claim C3 as stated: on `x\r\r\ny\nz\nw` with bound 2
the first truncation keeps the line `x\r`; splitting the truncated text
again turns it into `x`, so the second truncation differs. -/
theorem truncate_diff_idem_cex :
    1 ≤ 2 ∧
    (truncate_diff (truncate_diff crDiff 2).1 2).1 ≠ (truncate_diff crDiff 2).1 := by
  decide

/-- Witness for C3 at the five-line diff `a\nb\nc\nd\ne` with bound 2. -/
theorem truncate_diff_idem_w :
    (truncate_diff (truncate_diff fiveLines 2).1 2).1 = (truncate_diff fiveLines 2).1 :=
  truncate_diff_idem fiveLines 2 (by decide) (by decide)

/- ===================  Claim C7  ========================================== -/

/-- Claim C7 (confirmed): each configuration value is resolved by a pure
precedence chain — for the API key: command-line flag, else the provider's
environment variable, else the provider's config-file entry, and a missing
key is a configuration error; for endpoint and model (which have no
environment source): flag, else config file, else built-in default. -/
theorem config_precedence :
    (∀ cli env cfg p k, cli = some k → resolve_api_key cli env cfg p = some k) ∧
    (∀ env cfg p k, env (env_var_key p) = some k →
       resolve_api_key none env cfg p = some k) ∧
    (∀ env cfg p, env (env_var_key p) = none →
       resolve_api_key none env cfg p = config_api_key cfg p) ∧
    (∀ cli env cfg p, resolve_api_key cli env cfg p = none →
       api_key_startup cli env cfg p = .error .missingApiKey) ∧
    (∀ cfg p e, resolve_endpoint (some e) cfg p = e) ∧
    (∀ cfg p e, config_endpoint cfg p = some e → resolve_endpoint none cfg p = e) ∧
    (∀ cfg p, config_endpoint cfg p = none →
       resolve_endpoint none cfg p = default_endpoint p) ∧
    (∀ cfg p m, resolve_model (some m) cfg p = m) ∧
    (∀ cfg p m, config_model cfg p = some m → resolve_model none cfg p = m) ∧
    (∀ cfg p, config_model cfg p = none → resolve_model none cfg p = default_model p) := by
  refine ⟨?_, ?_, ?_, ?_, ?_, ?_, ?_, ?_, ?_, ?_⟩
  · intro cli env cfg p k h; subst h; rfl
  · intro env cfg p k h; simp [resolve_api_key, Option.orElse, h]
  · intro env cfg p h; simp [resolve_api_key, Option.orElse, h]
  · intro cli env cfg p h; simp [api_key_startup, h]
  · intro cfg p e; rfl
  · intro cfg p e h; simp [resolve_endpoint, h]
  · intro cfg p h; simp [resolve_endpoint, h]
  · intro cfg p m; rfl
  · intro cfg p m h; simp [resolve_model, h]
  · intro cfg p h; simp [resolve_model, h]

/-- Witness for C7: the flag wins for the key, a missing key is a
configuration error, and the built-in defaults apply with an empty
configuration. -/
theorem config_precedence_w :
    resolve_api_key (some sampleKey) (fun _ => none) emptyConfig .claude = some sampleKey ∧
    api_key_startup none (fun _ => none) emptyConfig .claude = .error .missingApiKey ∧
    resolve_endpoint none emptyConfig .claude = default_endpoint .claude ∧
    resolve_model none emptyConfig .openAi = default_model .openAi :=
  ⟨config_precedence.1 (some sampleKey) (fun _ => none) emptyConfig .claude sampleKey rfl,
   config_precedence.2.2.2.1 none (fun _ => none) emptyConfig .claude rfl,
   config_precedence.2.2.2.2.2.2.1 emptyConfig .claude rfl,
   config_precedence.2.2.2.2.2.2.2.2.2 emptyConfig .openAi rfl⟩

/- ===================  Claim C8  ========================================== -/

/-- Claim C8, amended: `estimate_tokens` returns the text's length in UTF-8
BYTES (Rust `str::len`), not characters, divided by 3.5 and rounded up to
the next integer, and never fails (it is a total function).  For pure
ASCII text byte length and character count coincide, but they differ on
multi-byte characters — see the counterexample. -/
theorem estimate_tokens_formula (s : Str) :
    (estimate_tokens s : ℤ) = ⌈(rustStrLen s : ℚ) / 3.5⌉ := by
  have h35 : (3.5 : ℚ) = 7 / 2 := by norm_num
  rw [h35, eq_comm, Int.ceil_eq_iff]
  have hqr := Nat.div_add_mod (2 * rustStrLen s + 6) 7
  have hr : (2 * rustStrLen s + 6) % 7 < 7 := Nat.mod_lt _ (by norm_num)
  constructor
  · have h1 : (7 : ℚ) * (estimate_tokens s : ℚ) - 7 < 2 * (rustStrLen s : ℚ) := by
      have hn : 7 * estimate_tokens s ≤ 2 * rustStrLen s + 6 := by
        unfold estimate_tokens; omega
      have := (Nat.cast_le (α := ℚ)).mpr hn
      push_cast at this ⊢
      linarith
    rw [lt_div_iff₀ (by norm_num : (0 : ℚ) < 7 / 2)]
    push_cast
    linarith
  · have h2 : 2 * (rustStrLen s : ℚ) ≤ 7 * (estimate_tokens s : ℚ) := by
      have hn : 2 * rustStrLen s ≤ 7 * estimate_tokens s := by
        unfold estimate_tokens; omega
      have := (Nat.cast_le (α := ℚ)).mpr hn
      push_cast at this ⊢
      linarith
    rw [div_le_iff₀ (by norm_num : (0 : ℚ) < 7 / 2)]
    push_cast
    linarith

/-- Counterexample to claim C8 as stated: four two-byte characters have
byte length 8 and character count 4; the code computes 3 tokens while the
character-based formula of the claim gives 2. -/
theorem estimate_tokens_cex :
    estimate_tokens accented = 3 ∧ accented.length = 4 ∧
    (⌈((4 : ℚ)) / 3.5⌉ = 2) ∧ estimate_tokens_chars accented = 2 := by
  refine ⟨by decide, by decide, ?_, by decide⟩
  rw [show (3.5 : ℚ) = 7 / 2 by norm_num, Int.ceil_eq_iff]
  norm_num

/- ===================  Claim C10  ========================================= -/

theorem aSlash_eq : aSlash = 'a' :: '/' :: [] := rfl

theorem trimStartAslash_eq_self (p : Str) (h : startsWith aSlash p = false) :
    trimStartAslash p = p := by
  match p with
  | [] => rfl
  | [c] => rfl
  | c :: c' :: cs =>
    have hc : ¬ (c = 'a' ∧ c' = '/') := by
      rintro ⟨rfl, rfl⟩
      simp [aSlash_eq, startsWith] at h
    simp [trimStartAslash, hc]

/-- Claim C10 (confirmed): the header path capture strips every leading
`a/` of the header's third space-separated token, not just the first one,
and the scan records exactly that stripped token as the current file. -/
theorem strip_all_a_segments :
    (∀ (k : Nat) (p : Str), startsWith aSlash p = false →
       trimStartAslash ((List.replicate k aSlash).flatten ++ p) = p) ∧
    (∀ (st : ScanState) (line : Str),
       startsWith binPat line = false → startsWith headerPat line = true →
       (scanLine st line).current_file
         = ((splitBy ' ' line)[2]?).map trimStartAslash) := by
  constructor
  · intro k
    induction k with
    | zero =>
      intro p h
      simpa using trimStartAslash_eq_self p h
    | succ k ih =>
      intro p h
      rw [List.replicate_succ, List.flatten_cons, aSlash_eq]
      have h2 : ('a' :: '/' :: []) ++ (List.replicate k ('a' :: '/' :: [])).flatten ++ p
          = 'a' :: '/' :: ((List.replicate k ('a' :: '/' :: [])).flatten ++ p) := by simp
      rw [h2, trimStartAslash, if_pos ⟨rfl, rfl⟩, ← aSlash_eq]
      exact ih p h
  · intro st line hb hh
    rw [scanLine_header st line hb hh]
    simp [pathFromHeader]

/-- Witness for C10: two `a/` segments are both stripped, and the scan of
the header `diff --git a/a/x b/x` records the file path `x`. -/
theorem strip_all_a_segments_w :
    trimStartAslash ((List.replicate 2 aSlash).flatten ++ xPath) = xPath ∧
    (scanLine initState aaHeader).current_file
      = ((splitBy ' ' aaHeader)[2]?).map trimStartAslash ∧
    (scanLine initState aaHeader).current_file = some xPath := by
  refine ⟨strip_all_a_segments.1 2 xPath (by decide),
    strip_all_a_segments.2 initState aaHeader (by decide) (by decide),
    by decide⟩

/- ===================  line-structure of the normalized text  ============= -/

theorem noHeaderLine_nil : noHeaderLine [] := by
  intro p hp
  have hp' : p = [] := by simpa [splitBy] using hp
  subst hp'
  rfl

theorem noHeaderLine_append_nl (a b : Str) (ha : noHeaderLine a)
    (hb : noHeaderLine b) : noHeaderLine (a ++ '\n' :: b) := by
  intro p hp
  rw [splitBy_append_sep] at hp
  rcases List.mem_append.mp hp with h | h
  · exact ha p h
  · exact hb p h

theorem noHeaderLine_single (a : Str) (hnl : '\n' ∉ a)
    (h : startsWith headerPat a = false) : noHeaderLine a := by
  intro p hp
  rw [splitBy_no_sep '\n' a hnl] at hp
  rw [List.mem_singleton] at hp
  subst hp
  exact h

theorem noHeaderLine_cons_nl (b : Str) (hb : noHeaderLine b) :
    noHeaderLine ('\n' :: b) := by
  intro p hp
  simp only [splitBy, if_pos] at hp
  rcases List.mem_cons.mp hp with rfl | hp
  · rfl
  · exact hb p hp

theorem noHeaderLine_of_cons_nl (b : Str) (h : noHeaderLine ('\n' :: b)) :
    noHeaderLine b := by
  intro p hp
  apply h p
  simp only [splitBy, if_pos]
  exact List.mem_cons_of_mem [] hp

theorem noHeaderLine_joinNL (ps : List Str)
    (h : ∀ p ∈ ps, '\n' ∉ p ∧ startsWith headerPat p = false) :
    noHeaderLine (joinNL ps) := by
  induction ps with
  | nil => exact noHeaderLine_nil
  | cons p ps ih =>
    cases ps with
    | nil =>
      have hp := h p (List.mem_cons_self p [])
      exact noHeaderLine_single p hp.1 hp.2
    | cons p' ps' =>
      rw [joinNL_cons p (p' :: ps') (by simp)]
      have hp := h p (List.mem_cons_self p _)
      exact noHeaderLine_append_nl p _ (noHeaderLine_single p hp.1 hp.2)
        (ih (fun q hq => h q (List.mem_cons_of_mem p hq)))

theorem noHeaderLine_bullets (nf : List Str) (h : ∀ f ∈ nf, '\n' ∉ f) :
    noHeaderLine ((nf.map bullet).flatten) := by
  induction nf with
  | nil => exact noHeaderLine_nil
  | cons f fs ih =>
    have hb : (((f :: fs).map bullet).flatten)
        = ('•' :: ' ' :: f) ++ '\n' :: ((fs.map bullet).flatten) := by
      simp [bullet]
    rw [hb]
    refine noHeaderLine_append_nl _ _ ?_
      (ih (fun g hg => h g (List.mem_cons_of_mem f hg)))
    refine noHeaderLine_single _ ?_ rfl
    simp only [List.mem_cons]
    push_neg
    exact ⟨by decide, by decide, h f (List.mem_cons_self f fs)⟩

theorem buildSummary_noHeader (nf df : List Str)
    (hnf : ∀ f ∈ nf, '\n' ∉ f) (hdf : ∀ f ∈ df, '\n' ∉ f) :
    noHeaderLine (buildSummary nf df) := by
  rw [buildSummary]
  by_cases h1 : nf = []
  · rw [if_pos h1]
    by_cases h2 : df = []
    · rw [if_pos h2]
      exact noHeaderLine_nil
    · rw [if_neg h2]
      simp only [List.nil_append]
      exact noHeaderLine_cons_nl _ (noHeaderLine_append_nl _ _
        (noHeaderLine_single _ (by decide) (by decide))
        (noHeaderLine_bullets df hdf))
  · rw [if_neg h1]
    by_cases h2 : df = []
    · rw [if_pos h2]
      rw [List.append_nil]
      exact noHeaderLine_cons_nl _ (noHeaderLine_append_nl _ _
        (noHeaderLine_single _ (by decide) (by decide))
        (noHeaderLine_bullets nf hnf))
    · rw [if_neg h2]
      rw [List.cons_append]
      refine noHeaderLine_cons_nl _ ?_
      refine noHeaderLine_append_nl _ _ ?_ ?_
      · exact noHeaderLine_append_nl _ _
          (noHeaderLine_single _ (by decide) (by decide))
          (noHeaderLine_bullets nf hnf)
      · exact noHeaderLine_append_nl _ _
          (noHeaderLine_single _ (by decide) (by decide))
          (noHeaderLine_bullets df hdf)

theorem buildSummary_shape (nf df : List Str) :
    buildSummary nf df = [] ∨ ∃ t, buildSummary nf df = '\n' :: t := by
  rw [buildSummary]
  by_cases h1 : nf = []
  · rw [if_pos h1]
    by_cases h2 : df = []
    · rw [if_pos h2]
      left
      rfl
    · rw [if_neg h2]
      right
      exact ⟨_, rfl⟩
  · rw [if_neg h1]
    right
    rw [List.cons_append]
    exact ⟨_, rfl⟩

/- ===================  scan-state well-formedness  ======================== -/

theorem trimStartAslash_sub : ∀ (s : Str), ∀ c ∈ trimStartAslash s, c ∈ s
  | [] => by simp [trimStartAslash]
  | [c] => by simp [trimStartAslash]
  | a :: b :: cs => by
    by_cases h : a = 'a' ∧ b = '/'
    · intro c hc
      have hmem := trimStartAslash_sub cs c (by rwa [trimStartAslash, if_pos h] at hc)
      exact List.mem_cons_of_mem a (List.mem_cons_of_mem b hmem)
    · intro c hc
      rwa [trimStartAslash, if_neg h] at hc

theorem pathFromHeader_no_nl (line f : Str) (hl : '\n' ∉ line)
    (h : pathFromHeader line = some f) : '\n' ∉ f := by
  simp only [pathFromHeader] at h
  rcases ht : (splitBy ' ' line)[2]? with _ | tok
  · rw [ht] at h; cases h
  · rw [ht] at h
    simp only [Option.map_some'] at h
    injection h with h2
    intro hc
    rw [← h2] at hc
    have h1 : '\n' ∈ tok := trimStartAslash_sub tok '\n' hc
    exact hl (mem_splitBy_sub ' ' line tok (List.getElem?_mem ht) '\n' h1)

theorem initState_wf : StateWf initState := by
  refine ⟨?_, ?_, ?_, ?_⟩ <;> intro x hx <;> simp [initState] at hx

theorem flushCurrent_wf (st : ScanState) (h : StateWf st) :
    StateWf (flushCurrent st) := by
  obtain ⟨h1, h2, h3, h4⟩ := h
  unfold flushCurrent
  cases hc : st.current_file with
  | none => exact ⟨h1, h2, h3, h4⟩
  | some f =>
    have hf : '\n' ∉ f := h4 f hc
    split_ifs with hn hd
    · refine ⟨h1, ?_, h3, ?_⟩
      · intro g hg
        rcases List.mem_append.mp hg with hg | hg
        · exact h2 g hg
        · rw [List.mem_singleton] at hg
          subst hg
          exact hf
      · intro g hg
        simp at hg
    · refine ⟨h1, h2, ?_, ?_⟩
      · intro g hg
        rcases List.mem_append.mp hg with hg | hg
        · exact h3 g hg
        · rw [List.mem_singleton] at hg
          subst hg
          exact hf
      · intro g hg
        simp at hg
    · refine ⟨h1, h2, h3, ?_⟩
      intro g hg
      simp at hg

theorem scanLine_filtered_cases (st : ScanState) (l : Str) :
    (scanLine st l).filtered = st.filtered ∨
    ((scanLine st l).filtered = st.filtered ++ [l] ∧
      startsWith headerPat l = false) := by
  by_cases hb : startsWith binPat l = true
  · left
    rw [scanLine_bin st l hb]
  · by_cases hh : startsWith headerPat l = true
    · left
      rw [scanLine_header st l (by simp [hb]) hh, flushCurrent_filtered]
    · simp only [scanLine, hb, hh, if_false]
      split_ifs with h1 h2 h3 <;> simp_all

theorem scanLine_wf (st : ScanState) (l : Str) (h : StateWf st) (hl : '\n' ∉ l) :
    StateWf (scanLine st l) := by
  obtain ⟨h1, h2, h3, h4⟩ := h
  by_cases hb : startsWith binPat l = true
  · rw [scanLine_bin st l hb]
    exact ⟨h1, h2, h3, h4⟩
  · by_cases hh : startsWith headerPat l = true
    · rw [scanLine_header st l (by simp [hb]) hh]
      obtain ⟨g1, g2, g3, g4⟩ := flushCurrent_wf st ⟨h1, h2, h3, h4⟩
      refine ⟨g1, g2, g3, ?_⟩
      intro f hf
      exact pathFromHeader_no_nl l f hl hf
    · obtain ⟨hc, hnf, hdf, _⟩ := scanLine_not_header st l (by simp [hh])
      rcases scanLine_filtered_cases st l with hfc | ⟨hfc, _⟩
      · exact ⟨by rw [hfc]; exact h1, by rw [hnf]; exact h2,
          by rw [hdf]; exact h3, by rw [hc]; exact h4⟩
      · refine ⟨?_, by rw [hnf]; exact h2, by rw [hdf]; exact h3,
          by rw [hc]; exact h4⟩
        intro g hg
        rw [hfc] at hg
        rcases List.mem_append.mp hg with hg | hg
        · exact h1 g hg
        · rw [List.mem_singleton] at hg
          subst hg
          exact ⟨hl, by simpa using hh⟩

theorem scan_wf (ls : List Str) : ∀ st, StateWf st → (∀ l ∈ ls, '\n' ∉ l) →
    StateWf (ls.foldl scanLine st) := by
  induction ls with
  | nil =>
    intro st h _
    simpa using h
  | cons l ls ih =>
    intro st h hls
    rw [List.foldl_cons]
    exact ih _ (scanLine_wf st l h (hls l (List.mem_cons_self l ls)))
      (fun x hx => hls x (List.mem_cons_of_mem l hx))

theorem normalizeDiff_ok (d out : Str) (hok : normalizeDiff d = .ok out) :
    out = normalizedText d := by
  simp only [normalizeDiff] at hok
  by_cases h : rustTrim (normalizedText d) = []
  · rw [if_pos h] at hok
    cases hok
  · rw [if_neg h] at hok
    injection hok with h2
    exact h2.symm

/- ===================  Claim C9  ========================================== -/

/-- Claim C9 (confirmed): no per-file header line (a line beginning with
`diff --git`) ever appears in the normalized output's line content: header
lines are consumed by the scanner even for ordinary modified files, binary
notices are dropped, and the summary's lines begin with a bullet or a
section title, never with the header prefix. -/
theorem normalized_no_header (d out : Str) (hok : normalizeDiff d = .ok out) :
    ∀ l ∈ rustLines out, startsWith headerPat l = false := by
  have hout := normalizeDiff_ok d out hok
  subst hout
  obtain ⟨h1, h2, h3, _⟩ :=
    flushCurrent_wf _ (scan_wf _ initState initState_wf
      (fun l hl => mem_rustLines_no_nl d l hl))
  have hnh : noHeaderLine (normalizedText d) := by
    simp only [normalizedText]
    rcases buildSummary_shape (flushCurrent (scanDiff (rustLines d))).new_files
        (flushCurrent (scanDiff (rustLines d))).deleted_files with hs | ⟨t, hs⟩
    · rw [hs, List.append_nil]
      exact noHeaderLine_joinNL _ h1
    · rw [hs]
      have hsum := buildSummary_noHeader
        (flushCurrent (scanDiff (rustLines d))).new_files
        (flushCurrent (scanDiff (rustLines d))).deleted_files h2 h3
      rw [hs] at hsum
      exact noHeaderLine_append_nl _ _ (noHeaderLine_joinNL _ h1)
        (noHeaderLine_of_cons_nl t hsum)
  intro l hl
  obtain ⟨p, hp, hlp⟩ := mem_linesAux _ l hl
  have hph := hnh p hp
  rcases hlp with rfl | rfl
  · by_contra hcon
    rw [Bool.not_eq_false] at hcon
    have hsp := startsWith_stripCR headerPat p hcon
    rw [hsp] at hph
    cases hph
  · exact hph

/-- Witness for C9 at the two-line diff `hello\nworld`, which normalizes to
itself. -/
theorem normalized_no_header_w :
    normalizeDiff plainDiff = .ok plainDiff ∧
    (∀ l ∈ rustLines plainDiff, startsWith headerPat l = false) :=
  ⟨rfl, normalized_no_header plainDiff plainDiff rfl⟩

/- ===================  lemmas for the added-file claim  =================== -/

theorem startsWith_refl (p : Str) : startsWith p p = true :=
  (startsWith_iff p p).mpr ⟨[], by simp⟩

theorem headerStarts_not_bin (l : Str) (hh : startsWith headerPat l = true) :
    startsWith binPat l = false := by
  obtain ⟨t, rfl⟩ := (startsWith_iff _ _).mp hh
  rfl

theorem newPat_not_bin (l : Str) (hm : startsWith newPat l = true) :
    startsWith binPat l = false := by
  obtain ⟨t, rfl⟩ := (startsWith_iff _ _).mp hm
  rfl

theorem newPat_not_del (l : Str) (hm : startsWith newPat l = true) :
    startsWith delPat l = false := by
  obtain ⟨t, rfl⟩ := (startsWith_iff _ _).mp hm
  rfl

theorem newPat_not_header (l : Str) (hm : startsWith newPat l = true) :
    startsWith headerPat l = false := by
  obtain ⟨t, rfl⟩ := (startsWith_iff _ _).mp hm
  rfl

theorem scanLine_other (st : ScanState) (l : Str)
    (hb : startsWith binPat l = false) (hh : startsWith headerPat l = false) :
    scanLine st l =
      if startsWith delPat l = true then { st with in_delete := true }
      else if startsWith newPat l = true then { st with in_new := true }
      else if st.in_new = false ∧ st.in_delete = false then
        { st with filtered := st.filtered ++ [l] }
      else st := by
  simp only [scanLine, hb, hh]
  split_ifs <;> simp_all

theorem scanLine_equiv (s t : ScanState) (l : Str) (h : StEquiv s t) :
    StEquiv (scanLine s l) (scanLine t l) := by
  obtain ⟨hf, hc, hn, hd⟩ := h
  by_cases hb : startsWith binPat l = true
  · rw [scanLine_bin s l hb, scanLine_bin t l hb]
    exact ⟨hf, hc, hn, hd⟩
  · by_cases hh : startsWith headerPat l = true
    · rw [scanLine_header s l (by simp [hb]) hh, scanLine_header t l (by simp [hb]) hh]
      exact ⟨(flushCurrent_filtered s).trans (hf.trans (flushCurrent_filtered t).symm),
        rfl, rfl, rfl⟩
    · rw [scanLine_other s l (by simp [hb]) (by simp [hh]),
          scanLine_other t l (by simp [hb]) (by simp [hh]), hn, hd, hf]
      split_ifs
      · exact ⟨rfl, hc, rfl, rfl⟩
      · exact ⟨rfl, hc, rfl, rfl⟩
      · exact ⟨rfl, hc, rfl, rfl⟩
      · exact ⟨hf, hc, hn, hd⟩

theorem scan_equiv (ls : List Str) : ∀ s t : ScanState, StEquiv s t →
    StEquiv (ls.foldl scanLine s) (ls.foldl scanLine t) := by
  induction ls with
  | nil =>
    intro s t h
    simpa using h
  | cons l ls ih =>
    intro s t h
    rw [List.foldl_cons, List.foldl_cons]
    exact ih _ _ (scanLine_equiv s t l h)

theorem scan_current_const (ls : List Str) : ∀ st : ScanState,
    (∀ l ∈ ls, startsWith headerPat l = false) →
    (ls.foldl scanLine st).current_file = st.current_file := by
  induction ls with
  | nil => intro st _; rfl
  | cons l ls ih =>
    intro st h
    rw [List.foldl_cons, ih _ (fun x hx => h x (List.mem_cons_of_mem l hx)),
        (scanLine_not_header st l (h l (List.mem_cons_self l ls))).1]

theorem scanLine_new_marker (st : ScanState) (l : Str)
    (hh : startsWith headerPat l = false) (hm : startsWith newPat l = true) :
    (scanLine st l).in_new = true ∧ (scanLine st l).filtered = st.filtered ∧
    (scanLine st l).current_file = st.current_file ∧
    (scanLine st l).new_files = st.new_files ∧
    (scanLine st l).deleted_files = st.deleted_files := by
  have hb : startsWith binPat l = false := newPat_not_bin l hm
  have hd : startsWith delPat l = false := newPat_not_del l hm
  rw [scanLine_other st l hb hh, if_neg (by simp [hd]), if_pos hm]
  exact ⟨rfl, rfl, rfl, rfl, rfl⟩

theorem scan_in_new (ls : List Str) : ∀ st : ScanState, st.in_new = true →
    (∀ l ∈ ls, startsWith headerPat l = false) →
    (ls.foldl scanLine st).filtered = st.filtered ∧
    (ls.foldl scanLine st).current_file = st.current_file ∧
    (ls.foldl scanLine st).in_new = true ∧
    (ls.foldl scanLine st).new_files = st.new_files ∧
    (ls.foldl scanLine st).deleted_files = st.deleted_files := by
  induction ls with
  | nil =>
    intro st h _
    exact ⟨rfl, rfl, h, rfl, rfl⟩
  | cons l ls ih =>
    intro st h hls
    obtain ⟨hc, hnf, hdf, himp⟩ := scanLine_not_header st l (hls l (List.mem_cons_self l ls))
    obtain ⟨hin, hfl⟩ := himp h
    rw [List.foldl_cons]
    obtain ⟨g1, g2, g3, g4, g5⟩ := ih (scanLine st l) hin
      (fun x hx => hls x (List.mem_cons_of_mem l hx))
    exact ⟨g1.trans hfl, g2.trans hc, g3, g4.trans hnf, g5.trans hdf⟩

theorem mem_new_files_scan (ls : List Str) (st : ScanState) (f : Str)
    (h : f ∈ st.new_files) : f ∈ (ls.foldl scanLine st).new_files := by
  obtain ⟨t, ht⟩ := scan_new_files_mono ls st
  rw [ht]
  exact List.mem_append_left t h

theorem flushCurrent_new_files_mem (st : ScanState) (f : Str)
    (h : f ∈ st.new_files) : f ∈ (flushCurrent st).new_files := by
  obtain ⟨t, ht⟩ := flushCurrent_new_files_mono st
  rw [ht]
  exact List.mem_append_left t h

theorem occursIn_bullets (nf : List Str) (X : Str) (h : X ∈ nf) :
    occursIn (bullet X) ((nf.map bullet).flatten) = true := by
  induction nf with
  | nil => cases h
  | cons f fs ih =>
    rcases List.mem_cons.mp h with rfl | h
    · simp only [List.map_cons, List.flatten_cons]
      exact occursIn_append_left _ _ _
        (occursIn_of_startsWith _ _ (startsWith_refl _))
    · simp only [List.map_cons, List.flatten_cons]
      exact occursIn_append_right _ _ _ (ih h)

theorem occursIn_buildSummary (nf df : List Str) (X : Str) (h : X ∈ nf) :
    occursIn (bullet X) (buildSummary nf df) = true := by
  have hne : nf ≠ [] := by rintro rfl; cases h
  rw [buildSummary, if_neg hne]
  apply occursIn_append_left
  apply occursIn_cons
  apply occursIn_append_right
  apply occursIn_cons
  exact occursIn_bullets nf X h

theorem ok_of_bullet (d X : Str)
    (hX : X ∈ (flushCurrent (scanDiff (rustLines d))).new_files) :
    normalizeDiff d = .ok (normalizedText d) ∧
    occursIn (bullet X) (normalizedText d) = true := by
  have hocc : occursIn (bullet X) (buildSummary
      (flushCurrent (scanDiff (rustLines d))).new_files
      (flushCurrent (scanDiff (rustLines d))).deleted_files) = true :=
    occursIn_buildSummary _ _ X hX
  have hbul : occursIn (bullet X) (normalizedText d) = true := by
    simp only [normalizedText]
    exact occursIn_append_right _ _ _ hocc
  have hdot : '•' ∈ normalizedText d :=
    mem_of_occursIn _ _ hbul '•' (by simp [bullet])
  have hne := rustTrim_ne_nil_of_mem _ '•' hdot (by decide)
  exact ⟨by simp [normalizeDiff, hne], hbul⟩

theorem scan_added_core (b1 b2 rest : List Str) (header marker X : Str)
    (st0 : ScanState)
    (hh : startsWith headerPat header = true)
    (hpath : pathFromHeader header = some X)
    (hm : startsWith newPat marker = true)
    (hb1 : ∀ l ∈ b1, startsWith headerPat l = false)
    (hb2 : ∀ l ∈ b2, startsWith headerPat l = false)
    (hrest : rest = [] ∨ ∃ h' rest', rest = h' :: rest' ∧
      startsWith headerPat h' = true) :
    X ∈ (flushCurrent (((header :: (b1 ++ marker :: b2)) ++ rest).foldl
      scanLine st0)).new_files ∧
    (((header :: (b1 ++ marker :: b2)) ++ rest).foldl scanLine st0).filtered
      = ((header :: b1 ++ rest).foldl scanLine st0).filtered := by
  simp only [List.foldl_cons, List.foldl_append]
  have hcur1 : (scanLine st0 header).current_file = some X := by
    rw [scanLine_header st0 header (headerStarts_not_bin header hh) hh]
    exact hpath
  have hcurb1 : (List.foldl scanLine (scanLine st0 header) b1).current_file = some X := by
    rw [scan_current_const b1 _ hb1, hcur1]
  have hmh : startsWith headerPat marker = false := newPat_not_header marker hm
  have hmark := scanLine_new_marker (List.foldl scanLine (scanLine st0 header) b1) marker hmh hm
  have hbody := scan_in_new b2 _ hmark.1 hb2
  have hcur2 : (List.foldl scanLine
      (scanLine (List.foldl scanLine (scanLine st0 header) b1) marker) b2).current_file
      = some X := by
    rw [hbody.2.1, hmark.2.2.1, hcurb1]
  have hin2 : (List.foldl scanLine
      (scanLine (List.foldl scanLine (scanLine st0 header) b1) marker) b2).in_new
      = true := hbody.2.2.1
  have hfil2 : (List.foldl scanLine
      (scanLine (List.foldl scanLine (scanLine st0 header) b1) marker) b2).filtered
      = (List.foldl scanLine (scanLine st0 header) b1).filtered := by
    rw [hbody.1, hmark.2.1]
  rcases hrest with rfl | ⟨h', rest', rfl, hh'⟩
  · simp only [List.foldl_nil]
    constructor
    · rw [flushCurrent_some_new _ X hcur2 hin2]
      simp
    · exact hfil2
  · simp only [List.foldl_cons]
    constructor
    · apply flushCurrent_new_files_mem
      apply mem_new_files_scan
      have hx : X ∈ (flushCurrent (List.foldl scanLine
          (scanLine (List.foldl scanLine (scanLine st0 header) b1) marker) b2)).new_files := by
        rw [flushCurrent_some_new _ X hcur2 hin2]
        simp
      rw [scanLine_header _ h' (headerStarts_not_bin h' hh') hh']
      exact hx
    · have hequiv : StEquiv
          (scanLine (List.foldl scanLine
            (scanLine (List.foldl scanLine (scanLine st0 header) b1) marker) b2) h')
          (scanLine (List.foldl scanLine (scanLine st0 header) b1) h') := by
        rw [scanLine_header _ h' (headerStarts_not_bin h' hh') hh',
            scanLine_header (List.foldl scanLine (scanLine st0 header) b1) h'
              (headerStarts_not_bin h' hh') hh']
        exact ⟨(flushCurrent_filtered _).trans (hfil2.trans (flushCurrent_filtered _).symm),
          rfl, rfl, rfl⟩
      exact (scan_equiv rest' _ _ hequiv).1

/- ===================  Claim C6  ========================================== -/

/-- Claim C6 (confirmed): for a RawDiff in which file X's per-file section
contains the null-device pre-image marker, X's path lands in the scanner's
new-files list, normalization succeeds with the bulleted line `• X` in the
output's New-files summary, and the section's lines from the marker onward
(which include every hunk body line of X) contribute nothing to the
normalized output's line content: the filtered lines equal those of the
same diff with the marker and everything after it in the section
removed. -/
theorem added_file_sections (d X header marker : Str) (pre b1 b2 rest : List Str)
    (hsplit : rustLines d = pre ++ header :: (b1 ++ marker :: b2) ++ rest)
    (hh : startsWith headerPat header = true)
    (hpath : pathFromHeader header = some X)
    (hm : startsWith newPat marker = true)
    (hb1 : ∀ l ∈ b1, startsWith headerPat l = false)
    (hb2 : ∀ l ∈ b2, startsWith headerPat l = false)
    (hrest : rest = [] ∨ ∃ h' rest', rest = h' :: rest' ∧
      startsWith headerPat h' = true) :
    X ∈ (flushCurrent (scanDiff (rustLines d))).new_files ∧
    (∃ out, normalizeDiff d = .ok out ∧ occursIn (bullet X) out = true) ∧
    (scanDiff (rustLines d)).filtered
      = (scanDiff (pre ++ header :: b1 ++ rest)).filtered := by
  have hcore := scan_added_core b1 b2 rest header marker X
    (pre.foldl scanLine initState) hh hpath hm hb1 hb2 hrest
  have hL : scanDiff (rustLines d)
      = ((header :: (b1 ++ marker :: b2)) ++ rest).foldl scanLine
          (pre.foldl scanLine initState) := by
    rw [scanDiff, hsplit]
    simp only [List.foldl_append, List.foldl_cons]
  have hR : scanDiff (pre ++ header :: b1 ++ rest)
      = (header :: b1 ++ rest).foldl scanLine (pre.foldl scanLine initState) := by
    rw [scanDiff]
    simp only [List.foldl_append, List.foldl_cons]
  have h1 : X ∈ (flushCurrent (scanDiff (rustLines d))).new_files := by
    rw [hL]
    exact hcore.1
  refine ⟨h1, ?_, ?_⟩
  · obtain ⟨hok, hbul⟩ := ok_of_bullet d X h1
    exact ⟨normalizedText d, hok, hbul⟩
  · rw [hL, hR]
    exact hcore.2

/-- Witness for C6: the diff `addedMidDiff` whose middle section adds file
`g`, followed by an ordinary section. -/
theorem added_file_sections_w :
    gPath ∈ (flushCurrent (scanDiff (rustLines addedMidDiff))).new_files ∧
    (∃ out, normalizeDiff addedMidDiff = .ok out ∧
      occursIn (bullet gPath) out = true) ∧
    (scanDiff (rustLines addedMidDiff)).filtered
      = (scanDiff ([ctxLine] ++ gHeader :: [] ++ [hHeader, zLine])).filtered :=
  added_file_sections addedMidDiff gPath gHeader nullMarker [ctxLine] [] [plusB, plusY]
    [hHeader, zLine] (by decide) (by decide) (by decide) (by decide)
    (by decide) (by decide) (Or.inr ⟨hHeader, [zLine], rfl, by decide⟩)
